import Mathlib

/- Verification development for the endpoint-discovery pipeline.

   The Python sources are shallowly embedded: text is `List Char`
   (Python `str` is a sequence of code points), machine integers are
   `Nat`/`Int`, and each relevant Python function becomes an executable
   Lean definition with the same name where possible:

   * `chunk_by_size`           from discover_and_chunk/lambda_function.py
   * `classify_relative_path`  the per-path body of `discover_api_files`
   * `extract_section_end_brace` / `extract_section_end_py`
                               the section-end computation of
                               `extract_api_sections`
   * `parse_endpoints_from_response` / `regex_extract_endpoints`
                               from invoke_bedrock/lambda_function.py
                               (the per-record normalisation step; the
                               JSON/regex matching that produces the raw
                               (method, path) pairs is the input)
   * `deduplicate_endpoints`   from aggregate/lambda_function.py
-/

set_option maxHeartbeats 1000000

/-- Newline code point, written numerically to keep the file free of
    quote-sensitive literals. -/
def nlChar : Char := Char.ofNat 10

/-- Double-quote code point. -/
def dquote : Char := Char.ofNat 34

/-- Single-quote code point. -/
def squote : Char := Char.ofNat 39

/-- Opening curly brace code point. -/
def lbrace : Char := Char.ofNat 123

/-- Closing curly brace code point. -/
def rbrace : Char := Char.ofNat 125

/-- Python `text.split(sep)` for a one-character separator: splits at every
    occurrence, keeping empty pieces, and yields one piece even for empty
    input. -/
def splitSep (sep : Char) : List Char → List (List Char)
  | [] => [[]]
  | c :: cs =>
    if c = sep then [] :: splitSep sep cs
    else
      match splitSep sep cs with
      | [] => [[c]]
      | g :: gs => (c :: g) :: gs

/-- Python `'\n'.join(pieces)` (specialised to the newline separator used by
    `chunk_by_size`). -/
def joinNl : List (List Char) → List Char
  | [] => []
  | [g] => g
  | g :: g' :: gs => g ++ nlChar :: joinNl (g' :: gs)

/-- Python `len(line) + 1` — the running size charged per line inside
    `chunk_by_size` (one character of newline cost per line). -/
def lineCost (l : List Char) : Nat := l.length + 1

/-- One iteration of the `for line in lines` loop of `chunk_by_size`.
    State is (completed chunks, current chunk lines, current size). -/
def chunkStep (B : Nat) (st : List (List Char) × List (List Char) × Nat)
    (line : List Char) : List (List Char) × List (List Char) × Nat :=
  match st with
  | (chunks, cur, size) =>
    if B < size + lineCost line ∧ cur ≠ [] then
      (chunks ++ [joinNl cur], [line], lineCost line)
    else
      (chunks, cur ++ [line], size + lineCost line)

/-- The epilogue of `chunk_by_size`: append the last chunk if non-empty. -/
def chunkFinish (st : List (List Char) × List (List Char) × Nat) :
    List (List Char) :=
  match st with
  | (chunks, cur, _) => if cur ≠ [] then chunks ++ [joinNl cur] else chunks

/-- Faithful model of `chunk_by_size(text, max_size)`
    (discover_and_chunk/lambda_function.py, lines 373-409). -/
def chunk_by_size (text : List Char) (B : Nat) : List (List Char) :=
  if text.length ≤ B then [text]
  else chunkFinish ((splitSep nlChar text).foldl (chunkStep B) ([], [], 0))

/-- Sum of `lineCost` over a group of lines — the size the greedy loop
    charges a chunk made of these lines. -/
def cost (g : List (List Char)) : Nat := (g.map lineCost).sum

/-- How many further lines the greedy loop of `chunk_by_size` packs into the
    current chunk, given the accumulated size `acc`. -/
def extLen (B : Nat) (acc : Nat) : List (List Char) → Nat
  | [] => 0
  | l :: ls => if B < acc + lineCost l then 0 else extLen B (acc + lineCost l) ls + 1

/-- The grouping of lines into chunks performed by the greedy loop of
    `chunk_by_size`, in maximal-prefix form (proved equivalent to the fold). -/
def greedyGroups (B : Nat) : List (List Char) → List (List (List Char))
  | [] => []
  | l :: ls =>
    (l :: ls.take (extLen B (lineCost l) ls)) ::
      greedyGroups B (ls.drop (extLen B (lineCost l) ls))
termination_by ls => ls.length
decreasing_by
  simp only [List.length_drop, List.length_cons]
  omega

/-- `greedyGroups` continued from a non-empty open chunk `cur`. -/
def greedyCont (B : Nat) (cur : List (List Char)) (lines : List (List Char)) :
    List (List (List Char)) :=
  (cur ++ lines.take (extLen B (cost cur) lines)) ::
    greedyGroups B (lines.drop (extLen B (cost cur) lines))

/-- Number of chunks the greedy loop produces. -/
def gcount (B : Nat) (lines : List (List Char)) : Nat :=
  (greedyGroups B lines).length

/-- A split of `text` into chunks that is valid in the sense used by the
    minimality claim about `chunk_by_size`: the chunks joined with newlines
    reconstruct the text, and each chunk stays within the character budget
    except a chunk that is a single (over-long) line of the text. -/
def claimValidSplit (B : Nat) (text : List Char) (chunks : List (List Char)) :
    Prop :=
  joinNl chunks = text ∧
    ∀ c ∈ chunks, c.length ≤ B ∨ (B < c.length ∧ c ∈ splitSep nlChar text)

/-- An endpoint candidate record consumed by `deduplicate_endpoints`:
    the four fields read from each result dictionary (an absent
    method/path is modelled by the empty string, matching the `.get` default). -/
structure EndpointRecord where
  method : String
  path : String
  repo_name : String
  file_path : String
deriving DecidableEq

/-- A canonical endpoint as produced by `deduplicate_endpoints`: the
    first-seen record for its key plus the accumulated
    `alternative_sources` list. -/
structure CanonicalRecord where
  method : String
  path : String
  repo_name : String
  file_path : String
  alternative_sources : List (String × String)
deriving DecidableEq

/-- The `f"{method}:{path}"` dictionary key of `deduplicate_endpoints`. -/
def keyOf (e : EndpointRecord) : String := e.method ++ (":") ++ e.path

/-- The (repo_name, file_path) source pair of a candidate. -/
def srcOf (e : EndpointRecord) : String × String := (e.repo_name, e.file_path)

/-- The duplicate-merge branch of `deduplicate_endpoints`: compare the
    candidate's source against the stored (primary) source and append it to
    `alternative_sources` when it differs and is not already present. -/
def mergeAlt (c : CanonicalRecord) (e : EndpointRecord) : CanonicalRecord :=
  if (e.repo_name ≠ c.repo_name ∨ e.file_path ≠ c.file_path) ∧
      (e.repo_name, e.file_path) ∉ c.alternative_sources then
    ⟨c.method, c.path, c.repo_name, c.file_path,
      c.alternative_sources ++ [(e.repo_name, e.file_path)]⟩
  else c

/-- One iteration of the `for endpoint in endpoints` loop of
    `deduplicate_endpoints`; the Python dict (which preserves insertion
    order) is modelled as an association list. -/
def dedup_step (m : List (String × CanonicalRecord)) (e : EndpointRecord) :
    List (String × CanonicalRecord) :=
  if e.method ≠ ("") ∧ e.path ≠ ("") then
    match m.find? (fun p => p.1 == keyOf e) with
    | none =>
      m ++ [(keyOf e, ⟨e.method, e.path, e.repo_name, e.file_path, []⟩)]
    | some _ =>
      m.map (fun p => if p.1 == keyOf e then (p.1, mergeAlt p.2 e) else p)
  else m

/-- Faithful model of `deduplicate_endpoints(endpoints)`
    (aggregate/lambda_function.py, lines 113-151). -/
def deduplicate_endpoints (endpoints : List EndpointRecord) :
    List CanonicalRecord :=
  (endpoints.foldl dedup_step []).map (fun p => p.2)

/-- Whether a candidate passes the `if method and path` guard. -/
def validRec (e : EndpointRecord) : Bool :=
  !(e.method == ("")) && !(e.path == (""))

/-- The sub-stream of candidates that carry a given key (and pass the
    method/path guard), in arrival order. -/
def candsFor (k : String) (cs : List EndpointRecord) : List EndpointRecord :=
  cs.filter (fun c => validRec c && (keyOf c == k))

/-- The alternative-source list dictated by the stream: later same-key
    candidates whose source differs from the primary, first occurrences
    only, in order. -/
def altSpec (prim : String × String) (later : List EndpointRecord) :
    List (String × String) :=
  later.foldl
    (fun acc c => if srcOf c ≠ prim ∧ srcOf c ∉ acc then acc ++ [srcOf c] else acc)
    []

/-- Python `str.upper` on one character (ASCII range, as exercised by the
    pipeline's method strings). -/
def upChar (c : Char) : Char :=
  if 97 ≤ c.toNat ∧ c.toNat ≤ 122 then Char.ofNat (c.toNat - 32) else c

/-- Python `method.upper()`. -/
def upperChars (l : List Char) : List Char := l.map upChar

/-- Python `str.lower` on one character (ASCII), used for the
    case-insensitive path matching of `re.IGNORECASE`. -/
def lowChar (c : Char) : Char :=
  if 65 ≤ c.toNat ∧ c.toNat ≤ 90 then Char.ofNat (c.toNat + 32) else c

/-- Python `re.sub(r'/+', '/', path)`: collapse every run of slashes to a
    single slash (a slash immediately followed by another slash is dropped,
    which replaces each maximal run by its last slash). -/
def collapseSlashes : List Char → List Char
  | [] => []
  | [c] => [c]
  | c :: c' :: cs =>
    if c = '/' ∧ c' = '/' then collapseSlashes (c' :: cs)
    else c :: collapseSlashes (c' :: cs)

/-- The path clean-up applied by both parser branches: collapse duplicate
    slashes, then ensure a leading slash. -/
def normalizePath (p : List Char) : List Char :=
  let q := collapseSlashes p
  if q.head? = some '/' then q else '/' :: q

/-- Whether two consecutive slashes occur somewhere in the string. -/
def hasDoubleSlash : List Char → Bool
  | c :: c' :: rest => (c = '/' && c' = '/') || hasDoubleSlash (c' :: rest)
  | _ => false

/-- A path in the normal form the parser guarantees: leading slash and no
    repeated slashes. -/
def isNormalizedPath (p : List Char) : Prop :=
  p.head? = some '/' ∧ hasDoubleSlash p = false

/-- An uppercase ASCII letter — what the regex class `[A-Z]` matches. -/
def isUpperAZ (c : Char) : Prop := 65 ≤ c.toNat ∧ c.toNat ≤ 90

/-- An endpoint record as built by invoke_bedrock/lambda_function.py. -/
structure BedrockRecord where
  method : List Char
  path : List Char
  repo_name : List Char
  file_path : List Char
deriving DecidableEq

/-- The per-record processing of the JSON branch of
    `parse_endpoints_from_response` (invoke_bedrock/lambda_function.py,
    lines 190-209): input is the list of (method, path) pairs decoded from
    the model response; records with a falsy path are skipped, the method is
    upper-cased and the path normalised. -/
def parse_endpoints_from_response (entries : List (List Char × List Char))
    (repo file : List Char) : List BedrockRecord :=
  entries.filterMap (fun mp =>
    if mp.2 ≠ [] then
      some ⟨upperChars mp.1, normalizePath mp.2, repo, file⟩
    else none)

/-- The per-match processing of `regex_extract_endpoints`
    (invoke_bedrock/lambda_function.py, lines 241-258): input is the list of
    (method, path) capture pairs; the path is normalised when non-empty and
    the record is appended unconditionally. -/
def regex_extract_endpoints (ms : List (List Char × List Char))
    (repo file : List Char) : List BedrockRecord :=
  ms.map (fun mp =>
    ⟨mp.1, if mp.2 ≠ [] then normalizePath mp.2 else mp.2, repo, file⟩)

/-- Tokens of the miniature pattern language needed for `FILE_PATTERNS`:
    a literal character (matched case-insensitively, per `re.IGNORECASE`)
    or `.*` (any run of non-newline characters). Every pattern in the table
    ends with `$`, which the matcher builds in by requiring the match to
    reach the end of the string. -/
inductive RTok where
  | tok (c : Char)
  | anyStar
deriving DecidableEq

/-- Match a `$`-anchored pattern against the whole remaining string.
    The `fuel` argument only drives structural recursion; the entry point
    below supplies `pattern length + string length`, which every recursive
    call strictly preserves as an upper bound, so the fuel-exhausted branch
    is never taken. -/
def rmatchF : Nat → List RTok → List Char → Bool
  | _, [], [] => true
  | _, [], _ :: _ => false
  | _, RTok.tok _ :: _, [] => false
  | 0, _, _ => false
  | f + 1, RTok.tok c :: ps, x :: xs => (lowChar x == lowChar c) && rmatchF f ps xs
  | f + 1, RTok.anyStar :: ps, [] => rmatchF f ps []
  | f + 1, RTok.anyStar :: ps, x :: xs =>
    rmatchF f ps (x :: xs) || (!(x == nlChar) && rmatchF f (RTok.anyStar :: ps) xs)

/-- Entry point of the matcher. -/
def rmatch (ps : List RTok) (xs : List Char) : Bool :=
  rmatchF (ps.length + xs.length) ps xs

/-- Python `re.search` for such a pattern: try every start position. -/
def rsearch (ps : List RTok) : List Char → Bool
  | [] => rmatch ps []
  | x :: xs => rmatch ps (x :: xs) || rsearch ps xs

/-- Literal part of a pattern. -/
def lits (s : String) : List RTok := s.data.map RTok.tok

/-- The `FILE_PATTERNS` table of discover_and_chunk/lambda_function.py
    (lines 21-65), in its dictionary insertion order; `r'X.*Y$'` becomes
    `lits X ++ [anyStar] ++ lits Y`. -/
def filePatterns : List (String × List (List RTok)) :=
  [ (("node_express"),
      [ lits ("routes/") ++ [RTok.anyStar] ++ lits (".js"),
        lits ("controllers/") ++ [RTok.anyStar] ++ lits (".js"),
        lits ("api/") ++ [RTok.anyStar] ++ lits (".js"),
        RTok.anyStar :: lits ("router.js"),
        RTok.anyStar :: lits ("routes.js"),
        RTok.anyStar :: lits ("controller.js") ]),
    (("python_web"),
      [ lits ("routes/") ++ [RTok.anyStar] ++ lits (".py"),
        lits ("views/") ++ [RTok.anyStar] ++ lits (".py"),
        lits ("api/") ++ [RTok.anyStar] ++ lits (".py"),
        lits ("controllers/") ++ [RTok.anyStar] ++ lits (".py"),
        RTok.anyStar :: lits ("router.py"),
        RTok.anyStar :: lits ("routes.py"),
        RTok.anyStar :: lits ("views.py"),
        RTok.anyStar :: lits ("app.py") ]),
    (("java_spring"),
      [ RTok.anyStar :: lits ("Controller.java"),
        RTok.anyStar :: lits ("Resource.java"),
        RTok.anyStar :: lits ("Endpoint.java") ]),
    (("golang"),
      [ lits ("handlers/") ++ [RTok.anyStar] ++ lits (".go"),
        lits ("routes/") ++ [RTok.anyStar] ++ lits (".go"),
        lits ("api/") ++ [RTok.anyStar] ++ lits (".go"),
        RTok.anyStar :: lits ("router.go"),
        RTok.anyStar :: lits ("handler.go") ]),
    (("typescript"),
      [ lits ("routes/") ++ [RTok.anyStar] ++ lits (".ts"),
        lits ("controllers/") ++ [RTok.anyStar] ++ lits (".ts"),
        lits ("api/") ++ [RTok.anyStar] ++ lits (".ts"),
        RTok.anyStar :: lits ("router.ts"),
        RTok.anyStar :: lits ("routes.ts"),
        RTok.anyStar :: lits ("controller.ts") ]) ]

/-- The vendor/build/dependency directory names excluded by
    `discover_api_files`. -/
def vendorDirs : List (List Char) :=
  [ ("node_modules").data, ("vendor").data, ("dist").data,
    ("build").data, ("target").data, ("venv").data ]

/-- The per-path body of `discover_api_files`
    (discover_and_chunk/lambda_function.py, lines 184-202): skip hidden and
    vendor segments, otherwise return the first framework (in table order)
    one of whose patterns matches the relative path. -/
def classify_relative_path (path : List Char) : Option String :=
  let parts := splitSep '/' path
  if parts.any (fun p => p.head? == some '.') then none
  else if parts.any (fun p => vendorDirs.contains p) then none
  else
    filePatterns.findSome? (fun fp =>
      if fp.2.any (fun pat => rsearch pat path) then some fp.1 else none)

/-- `discover_api_files` restricted to what the claims need: the sub-list of
    relative paths that are selected as candidates. -/
def discover_api_files (paths : List (List Char)) : List (List Char) :=
  paths.filter (fun p => (classify_relative_path p).isSome)

/-- First index at or after `i` where the predicate holds. -/
def findIdxFrom (p : Char → Bool) : List Char → Option Nat
  | [] => none
  | c :: cs => if p c then some 0 else (findIdxFrom p cs).map (· + 1)

/-- Python `content.find(ch, i)` restricted to single characters, as an
    optional index. -/
def pyFindCharNat (l : List Char) (c : Char) (i : Nat) : Option Nat :=
  (findIdxFrom (fun d => d == c) (l.drop i)).map (i + ·)

/-- `end = content.find('\n', match.end()); if end == -1: end = len(content)`
    — the end of the line containing the match. -/
def matchLineEnd (content : List Char) (mEnd : Nat) : Nat :=
  (pyFindCharNat content nlChar mEnd).getD content.length

/-- Whether a character is one of the two quote characters the brace scanner
    treats as string delimiters (`char in ['"', "'"]`). -/
def isQuoteChar (c : Char) : Bool := c == dquote || c == squote

/-- The quote-tracking update at the top of the brace-scanning loop of
    `extract_api_sections` (state: in_string flag and the opening quote). -/
def quoteUpd (inStr : Bool) (sChar : Option Char) (c : Char) :
    Bool × Option Char :=
  if isQuoteChar c then
    if inStr = false then (true, some c)
    else if sChar = some c then (false, sChar)
    else (inStr, sChar)
  else (inStr, sChar)

/-- The brace-balancing loop of `extract_api_sections`
    (discover_and_chunk/lambda_function.py, lines 325-348) over the slice
    `content[match.start():block_end]`. `brace_stack` holds only opening
    braces, so it is modelled by its depth; `if brace_stack: pop` is the
    truncated subtraction `depth - 1`. Returns the relative index `i` at
    which the loop breaks, if it does. -/
def braceScanAux (mLen : Nat) : List Char → Nat → Bool → Option Char → Nat →
    Option Nat
  | [], _, _, _, _ => none
  | c :: cs, i, inStr, sChar, depth =>
    let q := quoteUpd inStr sChar c
    if q.1 = false then
      if c = lbrace then braceScanAux mLen cs (i + 1) q.1 q.2 (depth + 1)
      else if c = rbrace then
        if depth - 1 = 0 ∧ mLen < i then some i
        else braceScanAux mLen cs (i + 1) q.1 q.2 (depth - 1)
      else braceScanAux mLen cs (i + 1) q.1 q.2 depth
    else braceScanAux mLen cs (i + 1) q.1 q.2 depth

/-- The slice `content[match.start():block_end]` scanned by the brace loop,
    where `block_end = min(len(content), end_of_match_line + 2000)`. -/
def braceRegion (content : List Char) (mStart mEnd : Nat) : List Char :=
  (content.take (min content.length (matchLineEnd content mEnd + 2000))).drop
    mStart

/-- The section end computed by `extract_api_sections` for the
    brace-delimited languages (js, ts, java, go): the break position plus
    one if the loop breaks, otherwise `end` keeps its earlier value — the
    end of the line containing the match. -/
def extract_section_end_brace (content : List Char) (mStart mEnd : Nat) :
    Nat :=
  match braceScanAux (mEnd - mStart) (braceRegion content mStart mEnd) 0
      false none 0 with
  | some i => mStart + i + 1
  | none => matchLineEnd content mEnd

/-- One transition of the brace scanner's state (in_string, quote char,
    depth), without the break test — used to state which positions of the
    region would make the loop break. -/
def scanStep (st : Bool × Option Char × Nat) (c : Char) :
    Bool × Option Char × Nat :=
  let q := quoteUpd st.1 st.2.1 c
  if q.1 = false then
    if c = lbrace then (q.1, q.2, st.2.2 + 1)
    else if c = rbrace then (q.1, q.2, st.2.2 - 1)
    else (q.1, q.2, st.2.2)
  else (q.1, q.2, st.2.2)

/-- Scanner state just before position `j` of the region. -/
def stateAtRegion (region : List Char) (j : Nat) : Bool × Option Char × Nat :=
  (region.take j).foldl scanStep (false, none, 0)

/-- Position `j` of the region makes the brace loop break: it holds a
    closing brace outside a string, the nesting counter is at zero after the
    (conditional) pop, and `j` lies strictly beyond the match length. -/
def isTriggerAt (mLen : Nat) (region : List Char) (j : Nat) : Prop :=
  region.get? j = some rbrace ∧ (stateAtRegion region j).1 = false ∧
    (stateAtRegion region j).2.2 - 1 = 0 ∧ mLen < j

instance (mLen : Nat) (region : List Char) (j : Nat) :
    Decidable (isTriggerAt mLen region j) := by
  unfold isTriggerAt
  infer_instance

/-- Modelled from the spec: the brace-scan termination condition as the
    specification states it — the counter must return to zero *after having
    gone positive*. Identical to `braceScanAux` except that the break
    requires `depth = 1` (a pop from a positive counter), not `depth ≤ 1`. -/
def claimScanAux (mLen : Nat) : List Char → Nat → Bool → Option Char → Nat →
    Option Nat
  | [], _, _, _, _ => none
  | c :: cs, i, inStr, sChar, depth =>
    let q := quoteUpd inStr sChar c
    if q.1 = false then
      if c = lbrace then claimScanAux mLen cs (i + 1) q.1 q.2 (depth + 1)
      else if c = rbrace then
        if depth = 1 ∧ mLen < i then some i
        else claimScanAux mLen cs (i + 1) q.1 q.2 (depth - 1)
      else claimScanAux mLen cs (i + 1) q.1 q.2 depth
    else claimScanAux mLen cs (i + 1) q.1 q.2 depth

/-- Modelled from the spec: the break position under the specification's
    termination condition, on the same region the code scans. -/
def claimBraceEnd (content : List Char) (mStart mEnd : Nat) : Option Nat :=
  claimScanAux (mEnd - mStart) (braceRegion content mStart mEnd) 0 false none 0

/-- Python whitespace for `str.strip` / `str.lstrip` (ASCII range). -/
def isWs (c : Char) : Bool :=
  c == ' ' || c == Char.ofNat 9 || c == nlChar || c == Char.ofNat 13 ||
    c == Char.ofNat 11 || c == Char.ofNat 12

/-- Whether `line.strip()` is truthy. -/
def hasContent (l : List Char) : Bool := l.any (fun c => !(isWs c))

/-- Python `len(line) - len(line.lstrip())`. -/
def indentOf (l : List Char) : Nat := (l.takeWhile isWs).length

/-- Python `str.find(ch, start)` with an `Int` result (`-1` when absent) and
    Python's clamping of a negative start. -/
def pyFindI (l : List Char) (c : Char) (start : Int) : Int :=
  let s : Nat := if start < 0 then ((l.length : Int) + start).toNat
    else start.toNat
  match pyFindCharNat l c s with
  | some j => (j : Int)
  | none => -1

/-- Python `l[:q]` including the negative-index case. -/
def pySliceTo (l : List Char) (q : Int) : List Char :=
  if q < 0 then l.take ((l.length : Int) + q).toNat else l.take q.toNat

/-- The section end computed by `extract_api_sections` for the
    indentation-delimited language (py)
    (discover_and_chunk/lambda_function.py, lines 350-364): the dedent scan
    over `block = content[end:block_end]` and, on break,
    `end = end + block[:block.find('\n', block.find('\n') + 1)].find('\n')`.
    The result is an `Int` because Python's `find` can contribute `-1`. -/
def extract_section_end_py (content : List Char) (mEnd : Nat) : Int :=
  let end0 := matchLineEnd content mEnd
  let block :=
    (content.take (min content.length (end0 + 2000))).drop end0
  let lines := splitSep nlChar block
  if 1 < lines.length then
    match lines.find? hasContent with
    | some fl =>
      if (lines.drop 1).any
          (fun l => hasContent l && indentOf l ≤ indentOf fl) then
        (end0 : Int) +
          pyFindI
            (pySliceTo block (pyFindI block nlChar ((pyFindI block nlChar 0) + 1)))
            nlChar 0
      else (end0 : Int)
    | none => (end0 : Int)
  else (end0 : Int)

/-! ### Structural lemmas about splitting and joining -/

theorem splitSep_ne_nil (sep : Char) (t : List Char) : splitSep sep t ≠ [] := by
  cases t with
  | nil => simp [splitSep]
  | cons c cs =>
    simp only [splitSep]
    split
    · simp
    · rcases h : splitSep sep cs with _ | ⟨g, gs⟩ <;> simp

theorem joinNl_cons_cons (g g' : List Char) (gs : List (List Char)) :
    joinNl (g :: g' :: gs) = g ++ nlChar :: joinNl (g' :: gs) := rfl

theorem joinNl_splitSep (t : List Char) : joinNl (splitSep nlChar t) = t := by
  induction t with
  | nil => rfl
  | cons c cs ih =>
    by_cases hc : c = nlChar
    · subst hc
      simp only [splitSep, if_pos rfl, if_true, eq_self_iff_true]
      rcases h : splitSep nlChar cs with _ | ⟨g, gs⟩
      · exact absurd h (splitSep_ne_nil _ _)
      · rw [h] at ih
        rw [joinNl_cons_cons, ih]
        rfl
    · simp only [splitSep, if_neg hc]
      rcases h : splitSep nlChar cs with _ | ⟨g, gs⟩
      · exact absurd h (splitSep_ne_nil _ _)
      · rw [h] at ih
        cases gs with
        | nil =>
          simp only [joinNl] at ih ⊢
          rw [ih]
        | cons g' gs' =>
          rw [joinNl_cons_cons] at ih ⊢
          rw [List.cons_append, ih]

/-! ### The fold inside `chunk_by_size` computes the greedy grouping -/

theorem cost_single (l : List Char) : cost [l] = lineCost l := by
  simp [cost]

theorem cost_append_single (g : List (List Char)) (l : List Char) :
    cost (g ++ [l]) = cost g + lineCost l := by
  simp [cost]

theorem greedyCont_singleton (B : Nat) (l : List Char)
    (ls : List (List Char)) :
    greedyCont B [l] ls = greedyGroups B (l :: ls) := by
  rw [greedyCont, greedyGroups, cost_single]
  rfl

theorem greedyCont_flush (B : Nat) (cur : List (List Char)) (l : List Char)
    (ls : List (List Char)) (h : B < cost cur + lineCost l) :
    greedyCont B cur (l :: ls) = cur :: greedyCont B [l] ls := by
  rw [greedyCont, extLen, if_pos h]
  simp only [List.take_zero, List.append_nil, List.drop_zero]
  rw [greedyCont_singleton]

theorem greedyCont_add (B : Nat) (cur : List (List Char)) (l : List Char)
    (ls : List (List Char)) (h : ¬ B < cost cur + lineCost l) :
    greedyCont B cur (l :: ls) = greedyCont B (cur ++ [l]) ls := by
  rw [greedyCont, greedyCont, extLen, if_neg h, cost_append_single]
  simp only [List.take_succ_cons, List.drop_succ_cons, List.append_assoc,
    List.singleton_append]

theorem foldl_chunkStep_eq (B : Nat) :
    ∀ (lines cur chunks : List (List Char)), cur ≠ [] →
      chunkFinish (lines.foldl (chunkStep B) (chunks, cur, cost cur)) =
        chunks ++ (greedyCont B cur lines).map joinNl := by
  intro lines
  induction lines with
  | nil =>
    intro cur chunks hc
    simp [chunkFinish, greedyCont, extLen, greedyGroups, hc]
  | cons l ls ih =>
    intro cur chunks hc
    simp only [List.foldl_cons]
    by_cases hover : B < cost cur + lineCost l
    · rw [show chunkStep B (chunks, cur, cost cur) l =
          (chunks ++ [joinNl cur], [l], lineCost l) by
        simp [chunkStep, hover, hc]]
      rw [← cost_single l, ih [l] (chunks ++ [joinNl cur]) (by simp)]
      rw [greedyCont_flush B cur l ls hover]
      simp
    · rw [show chunkStep B (chunks, cur, cost cur) l =
          (chunks, cur ++ [l], cost cur + lineCost l) by
        simp [chunkStep, hover]]
      rw [← cost_append_single, ih (cur ++ [l]) chunks (by simp)]
      rw [greedyCont_add B cur l ls hover]

theorem chunk_by_size_eq_greedy (text : List Char) (B : Nat)
    (h : ¬ text.length ≤ B) :
    chunk_by_size text B = (greedyGroups B (splitSep nlChar text)).map joinNl := by
  rw [chunk_by_size, if_neg h]
  rcases hs : splitSep nlChar text with _ | ⟨l, ls⟩
  · exact absurd hs (splitSep_ne_nil _ _)
  · simp only [List.foldl_cons]
    rw [show chunkStep B ([], [], 0) l = ([], [l], lineCost l) by
      simp [chunkStep]]
    rw [← cost_single l, foldl_chunkStep_eq B ls [l] [] (by simp)]
    rw [greedyCont_singleton]
    simp

/-! ### Structure of the greedy grouping -/

theorem greedyGroups_flatten (B : Nat) (lines : List (List Char)) :
    (greedyGroups B lines).flatten = lines := by
  induction lines using greedyGroups.induct B with
  | case1 => simp [greedyGroups]
  | case2 l ls ih =>
    rw [greedyGroups]
    simp only [List.flatten_cons, List.cons_append]
    rw [ih]
    simp [List.take_append_drop]

theorem greedyGroups_ne_nil (B : Nat) (lines : List (List Char)) :
    ∀ g ∈ greedyGroups B lines, g ≠ [] := by
  induction lines using greedyGroups.induct B with
  | case1 => simp [greedyGroups]
  | case2 l ls ih =>
    rw [greedyGroups]
    intro g hg
    rcases List.mem_cons.mp hg with h | h
    · subst h; simp
    · exact ih g h

theorem extLen_cost_le (B : Nat) :
    ∀ (ls : List (List Char)) (acc : Nat), 1 ≤ extLen B acc ls →
      acc + cost (ls.take (extLen B acc ls)) ≤ B := by
  intro ls
  induction ls with
  | nil => intro acc h; simp [extLen] at h
  | cons l ls ih =>
    intro acc h
    rw [extLen] at h ⊢
    by_cases hb : B < acc + lineCost l
    · rw [if_pos hb] at h; omega
    · rw [if_neg hb] at h ⊢
      simp only [List.take_succ_cons]
      have hc : cost (l :: ls.take (extLen B (acc + lineCost l) ls)) =
          lineCost l + cost (ls.take (extLen B (acc + lineCost l) ls)) := by
        simp [cost]
      rw [hc]
      by_cases h1 : 1 ≤ extLen B (acc + lineCost l) ls
      · have := ih (acc + lineCost l) h1
        omega
      · have h0 : extLen B (acc + lineCost l) ls = 0 := by omega
        rw [h0]
        simp only [List.take_zero]
        simp [cost]
        omega

theorem greedyGroups_valid (B : Nat) (lines : List (List Char)) :
    ∀ g ∈ greedyGroups B lines, g.length = 1 ∨ cost g ≤ B := by
  induction lines using greedyGroups.induct B with
  | case1 => simp [greedyGroups]
  | case2 l ls ih =>
    rw [greedyGroups]
    intro g hg
    rcases List.mem_cons.mp hg with h | h
    · subst h
      by_cases h1 : 1 ≤ extLen B (lineCost l) ls
      · right
        have := extLen_cost_le B ls (lineCost l) h1
        have hc : cost (l :: ls.take (extLen B (lineCost l) ls)) =
            lineCost l + cost (ls.take (extLen B (lineCost l) ls)) := by
          simp [cost]
        omega
      · left
        have h0 : extLen B (lineCost l) ls = 0 := by omega
        rw [h0]
        simp
    · exact ih g h

theorem joinNl_length (g : List (List Char)) (h : g ≠ []) :
    (joinNl g).length + 1 = cost g := by
  induction g with
  | nil => exact absurd rfl h
  | cons x xs ih =>
    cases xs with
    | nil => simp [joinNl, cost, lineCost]
    | cons y ys =>
      rw [joinNl_cons_cons]
      have := ih (by simp)
      simp only [List.length_append, List.length_cons] at this ⊢
      simp only [cost, List.map_cons, List.sum_cons] at this ⊢
      simp [lineCost] at this ⊢
      omega

/-! ### Claims C2 and C3: round-trip and size bound of `chunk_by_size` -/

theorem joinNl_append (a b : List (List Char)) (ha : a ≠ []) (hb : b ≠ []) :
    joinNl (a ++ b) = joinNl a ++ nlChar :: joinNl b := by
  induction a with
  | nil => exact absurd rfl ha
  | cons x a' ih =>
    cases a' with
    | nil =>
      rcases b with _ | ⟨y, ys⟩
      · exact absurd rfl hb
      · rw [List.singleton_append, joinNl_cons_cons]
        rfl
    | cons x' a'' =>
      have ih' := ih (by simp)
      simp only [List.cons_append] at ih' ⊢
      rw [joinNl_cons_cons, joinNl_cons_cons x x' a'', ih']
      simp

theorem flatten_ne_nil_of_head (g : List (List Char))
    (gs : List (List (List Char))) (h : g ≠ []) :
    (g :: gs).flatten ≠ [] := by
  simp only [List.flatten_cons]
  intro hc
  rcases List.append_eq_nil.mp hc with ⟨h1, _⟩
  exact h h1

theorem joinNl_map_joinNl (gs : List (List (List Char)))
    (h : ∀ g ∈ gs, g ≠ []) :
    joinNl (gs.map joinNl) = joinNl gs.flatten := by
  induction gs with
  | nil => rfl
  | cons g gs' ih =>
    cases gs' with
    | nil => simp [joinNl]
    | cons g' gs'' =>
      have ih' := ih (fun x hx => h x (List.mem_cons_of_mem _ hx))
      simp only [List.map_cons] at ih' ⊢
      rw [joinNl_cons_cons, ih']
      rw [show (g :: g' :: gs'').flatten = g ++ (g' :: gs'').flatten from
        List.flatten_cons]
      rw [joinNl_append g ((g' :: gs'').flatten)
        (h g (List.mem_cons_self _ _))
        (flatten_ne_nil_of_head g' gs'' (h g' (by simp)))]

/-- Claim C2: for every text and budget B > 0, joining the chunks produced
    by `chunk_by_size` in order with a single newline between consecutive
    chunks yields the original text. -/
theorem chunk_roundtrip (text : List Char) (B : Nat) (hB : 0 < B) :
    joinNl (chunk_by_size text B) = text := by
  by_cases h : text.length ≤ B
  · rw [chunk_by_size, if_pos h]
    rfl
  · rw [chunk_by_size_eq_greedy text B h,
      joinNl_map_joinNl _ (greedyGroups_ne_nil B _),
      greedyGroups_flatten]
    exact joinNl_splitSep text

/-- Witness for C2 at a concrete text and budget. -/
theorem chunk_roundtrip_witness :
    0 < 3 ∧ joinNl (chunk_by_size (("ab\ncd").data) 3) = ("ab\ncd").data :=
  ⟨by decide, chunk_roundtrip (("ab\ncd").data) 3 (by decide)⟩

theorem mem_length_le_joinNl (gs : List (List Char)) (l : List Char)
    (h : l ∈ gs) : l.length ≤ (joinNl gs).length := by
  induction gs with
  | nil => simp at h
  | cons x xs ih =>
    cases xs with
    | nil =>
      rcases List.mem_singleton.mp h with rfl
      exact le_refl _
    | cons y ys =>
      rw [joinNl_cons_cons]
      rcases List.mem_cons.mp h with rfl | hmem
      · simp
      · have := ih hmem
        simp only [List.length_append, List.length_cons]
        omega

/-- Claim C3: every chunk produced by `chunk_by_size` has at most B
    characters, except a chunk that is a single over-long line of the text;
    and every over-long line of the text is emitted as its own chunk
    (never split mid-line). -/
theorem chunk_size_bound (text : List Char) (B : Nat) (hB : 0 < B) :
    (∀ c ∈ chunk_by_size text B,
        c.length ≤ B ∨ (B < c.length ∧ c ∈ splitSep nlChar text)) ∧
      (∀ l ∈ splitSep nlChar text, B < l.length → l ∈ chunk_by_size text B) := by
  by_cases h : text.length ≤ B
  · constructor
    · intro c hc
      rw [chunk_by_size, if_pos h] at hc
      rcases List.mem_singleton.mp hc with rfl
      exact Or.inl h
    · intro l hl hlen
      have h1 : l.length ≤ (joinNl (splitSep nlChar text)).length :=
        mem_length_le_joinNl _ l hl
      rw [joinNl_splitSep] at h1
      omega
  · rw [chunk_by_size_eq_greedy text B h]
    constructor
    · intro c hc
      rcases List.mem_map.mp hc with ⟨g, hg, rfl⟩
      rcases greedyGroups_valid B _ g hg with h1 | h1
      · rcases g with _ | ⟨x, _ | ⟨y, t⟩⟩
        · simp at h1
        · have hx : x ∈ splitSep nlChar text := by
            have : x ∈ (greedyGroups B (splitSep nlChar text)).flatten :=
              List.mem_flatten.mpr ⟨[x], hg, by simp⟩
            rwa [greedyGroups_flatten] at this
          by_cases hb : (joinNl [x]).length ≤ B
          · exact Or.inl hb
          · refine Or.inr ⟨by omega, ?_⟩
            simpa [joinNl] using hx
        · simp at h1
      · have h2 := joinNl_length g (greedyGroups_ne_nil B _ g hg)
        omega
    · intro l hl hlen
      have hmem : l ∈ (greedyGroups B (splitSep nlChar text)).flatten := by
        rw [greedyGroups_flatten]; exact hl
      rcases List.mem_flatten.mp hmem with ⟨g, hg, hlg⟩
      have hcost : lineCost l ≤ cost g := by
        have : lineCost l ∈ g.map lineCost := List.mem_map_of_mem _ hlg
        exact List.single_le_sum (fun x _ => Nat.zero_le x) _ this
      rcases greedyGroups_valid B _ g hg with h1 | h1
      · have hgl : g = [l] := by
          rcases g with _ | ⟨x, _ | ⟨y, t⟩⟩
          · simp at hlg
          · rcases List.mem_singleton.mp hlg with rfl; rfl
          · simp at h1
        refine List.mem_map.mpr ⟨g, hg, ?_⟩
        rw [hgl]
        rfl
      · exfalso
        simp only [lineCost] at hcost
        omega

/-- Witness for C3 at a concrete text containing an over-long line. -/
theorem chunk_size_bound_witness :
    0 < 5 ∧
      ((∀ c ∈ chunk_by_size (("aaaa\nbbbbbbbb").data) 5,
          c.length ≤ 5 ∨
            (5 < c.length ∧ c ∈ splitSep nlChar (("aaaa\nbbbbbbbb").data))) ∧
        (∀ l ∈ splitSep nlChar (("aaaa\nbbbbbbbb").data),
          5 < l.length → l ∈ chunk_by_size (("aaaa\nbbbbbbbb").data) 5)) :=
  ⟨by decide, chunk_size_bound (("aaaa\nbbbbbbbb").data) 5 (by decide)⟩

/-! ### Claim C4: how greedy the chunk count really is -/

theorem cost_cons (t : List Char) (ts : List (List Char)) :
    cost (t :: ts) = lineCost t + cost ts := by
  simp [cost]

theorem extLen_le_length (B : Nat) :
    ∀ (ls : List (List Char)) (acc : Nat), extLen B acc ls ≤ ls.length := by
  intro ls
  induction ls with
  | nil => intro acc; simp [extLen]
  | cons l ls ih =>
    intro acc
    rw [extLen]
    split
    · simp
    · have := ih (acc + lineCost l)
      simp only [List.length_cons]
      omega

theorem extLen_append (B : Nat) :
    ∀ (tail rest : List (List Char)) (acc : Nat), acc + cost tail ≤ B →
      tail.length ≤ extLen B acc (tail ++ rest) := by
  intro tail
  induction tail with
  | nil => simp
  | cons t ts ih =>
    intro rest acc h
    rw [cost_cons] at h
    rw [List.cons_append, extLen]
    have hb : ¬ B < acc + lineCost t := by omega
    rw [if_neg hb]
    have := ih rest (acc + lineCost t) (by omega)
    simp only [List.length_cons]
    omega

theorem cost_drop_le (g : List (List Char)) (k : Nat) :
    cost (g.drop k) ≤ cost g := by
  induction g generalizing k with
  | nil => simp
  | cons x xs ih =>
    cases k with
    | zero => simp
    | succ k' =>
      rw [List.drop_succ_cons, cost_cons]
      have := ih k'
      omega

theorem gcount_cons (B : Nat) (l : List Char) (ls : List (List Char)) :
    gcount B (l :: ls) =
      gcount B (ls.drop (extLen B (lineCost l) ls)) + 1 := by
  rw [gcount, gcount, greedyGroups]
  simp

theorem gcount_drop_le (B : Nat) :
    ∀ (N : Nat) (lines : List (List Char)), lines.length ≤ N →
      ∀ k, gcount B (lines.drop k) ≤ gcount B lines := by
  intro N
  induction N with
  | zero =>
    intro lines hlen k
    have : lines = [] := List.length_eq_zero.mp (Nat.le_zero.mp hlen)
    subst this
    simp
  | succ N ih =>
    intro lines hlen k
    cases lines with
    | nil => simp
    | cons l ls =>
      cases k with
      | zero => simp
      | succ k' =>
        rw [List.drop_succ_cons]
        set n := extLen B (lineCost l) ls with hn
        have hnlen : n ≤ ls.length := extLen_le_length B ls (lineCost l)
        have hls : ls.length ≤ N := by
          simp only [List.length_cons] at hlen
          omega
        rw [gcount_cons, ← hn]
        by_cases hk : n ≤ k'
        · have hdrop : ls.drop k' = (ls.drop n).drop (k' - n) := by
            rw [List.drop_drop]
            congr 1
            omega
          rw [hdrop]
          have := ih (ls.drop n) (le_trans (by simp) hls) (k' - n)
          omega
        · push_neg at hk
          have hk1 : k' < ls.length := lt_of_lt_of_le hk hnlen
          have hxeq : ls.drop k' = ls.get ⟨k', hk1⟩ :: ls.drop (k' + 1) :=
            List.drop_eq_get_cons hk1
          set x := ls.get ⟨k', hk1⟩ with hx
          have hn1 : 1 ≤ n := by omega
          have hcostn : lineCost l + cost (ls.take n) ≤ B := by
            have h9 := extLen_cost_le B ls (lineCost l) hn1
            rw [← hn] at h9
            omega
          have htlen : (ls.take n).length = n := by
            rw [List.length_take]
            omega
          have hseg : (ls.take n).drop k' =
              x :: (ls.take n).drop (k' + 1) := by
            have hk2 : k' < (ls.take n).length := by rw [htlen]; exact hk
            rw [List.drop_eq_get_cons hk2]
            congr 1
            rw [hx]
            exact (List.get_take ls hk1 hk).symm
          have hsegcost : lineCost x + cost ((ls.take n).drop (k' + 1)) ≤ B := by
            have h1 : cost ((ls.take n).drop k') ≤ cost (ls.take n) :=
              cost_drop_le _ _
            rw [hseg, cost_cons] at h1
            omega
          have hsplit : ls.drop (k' + 1) =
              (ls.take n).drop (k' + 1) ++ ls.drop n := by
            conv_lhs => rw [← List.take_append_drop n ls]
            rw [List.drop_append_eq_append_drop]
            congr 1
            rw [htlen]
            have : k' + 1 - n = 0 := by omega
            rw [this, List.drop_zero]
          have hext : n - (k' + 1) ≤ extLen B (lineCost x) (ls.drop (k' + 1)) := by
            rw [hsplit]
            have := extLen_append B ((ls.take n).drop (k' + 1)) (ls.drop n)
              (lineCost x) hsegcost
            have hlen2 : ((ls.take n).drop (k' + 1)).length = n - (k' + 1) := by
              rw [List.length_drop, htlen]
            omega
          rw [hxeq, gcount_cons]
          set n' := extLen B (lineCost x) (ls.drop (k' + 1)) with hn'
          have hdrop2 : (ls.drop (k' + 1)).drop n' =
              (ls.drop n).drop (n' + (k' + 1) - n) := by
            rw [List.drop_drop, List.drop_drop]
            congr 1
            omega
          rw [hdrop2]
          have := ih (ls.drop n) (le_trans (by simp) hls) (n' + (k' + 1) - n)
          omega

/-- Amended claim C4: the number of chunks `chunk_by_size` produces is at
    most that of any decomposition of the text's lines into consecutive
    non-empty groups in which every group is a single line or has running
    size (one newline charged per line, i.e. at most B - 1 characters once
    joined) at most B.  The greedy loop is minimal for the budget it
    actually enforces — B on the newline-inclusive running size — not for
    the claimed bound of B characters per chunk. -/
theorem chunk_count_le (text : List Char) (B : Nat)
    (part : List (List (List Char)))
    (hjoin : part.flatten = splitSep nlChar text)
    (hne : ∀ g ∈ part, g ≠ [])
    (hvalid : ∀ g ∈ part, g.length = 1 ∨ cost g ≤ B) :
    (chunk_by_size text B).length ≤ part.length := by
  have main : ∀ (p : List (List (List Char))) (lines : List (List Char)),
      p.flatten = lines → (∀ g ∈ p, g ≠ []) →
      (∀ g ∈ p, g.length = 1 ∨ cost g ≤ B) →
      gcount B lines ≤ p.length := by
    intro p
    induction p with
    | nil =>
      intro lines hj _ _
      simp only [List.flatten_nil] at hj
      subst hj
      simp [gcount, greedyGroups]
    | cons g p' ih =>
      intro lines hj hn hv
      rcases g with _ | ⟨l, gtail⟩
      · exact absurd rfl (hn [] (by simp))
      · rw [List.flatten_cons] at hj
        subst hj
        rw [List.cons_append, gcount_cons]
        have hglen : l :: gtail ≠ [] := by simp
        have hgt : gtail.length ≤ extLen B (lineCost l) (gtail ++ p'.flatten) := by
          rcases hv (l :: gtail) (by simp) with h1 | h1
          · simp only [List.length_cons] at h1
            have : gtail = [] := List.length_eq_zero.mp (by omega)
            subst this
            simp
          · rw [cost_cons] at h1
            exact extLen_append B gtail p'.flatten (lineCost l) h1
        set n := extLen B (lineCost l) (gtail ++ p'.flatten) with hn2
        have hdrop : (gtail ++ p'.flatten).drop n =
            p'.flatten.drop (n - gtail.length) := by
          rw [List.drop_append_eq_append_drop]
          rw [List.drop_eq_nil_of_le hgt]
          simp
        rw [hdrop]
        have h1 : gcount B (p'.flatten.drop (n - gtail.length)) ≤
            gcount B p'.flatten :=
          gcount_drop_le B p'.flatten.length p'.flatten (le_refl _) _
        have h2 : gcount B p'.flatten ≤ p'.length :=
          ih p'.flatten rfl (fun g hg => hn g (List.mem_cons_of_mem _ hg))
            (fun g hg => hv g (List.mem_cons_of_mem _ hg))
        simp only [List.length_cons]
        omega
  by_cases h : text.length ≤ B
  · rw [chunk_by_size, if_pos h]
    have : part ≠ [] := by
      intro hc
      subst hc
      simp only [List.flatten_nil] at hjoin
      exact splitSep_ne_nil nlChar text hjoin.symm
    rcases part with _ | ⟨g, p'⟩
    · exact absurd rfl this
    · simp
  · rw [chunk_by_size_eq_greedy text B h, List.length_map]
    exact main part (splitSep nlChar text) hjoin hne hvalid

/-- Witness for the amended C4 at a concrete text and split. -/
theorem chunk_count_le_witness :
    (chunk_by_size (("aaaa\nbbbb\ncccccccc").data) 9).length ≤
      ([[("aaaa").data], [("bbbb").data], [("cccccccc").data]] :
        List (List (List Char))).length :=
  chunk_count_le (("aaaa\nbbbb\ncccccccc").data) 9
    [[("aaaa").data], [("bbbb").data], [("cccccccc").data]]
    (by decide) (by decide) (by decide)

/-- Counterexample to C4 as stated: with text `aaaa\nbbbb\ncccccccc` and
    budget 9, the code produces 3 chunks, but a split at line boundaries in
    which every chunk has at most 9 characters needs only 2 chunks
    (`aaaa\nbbbb` has exactly 9 characters). The greedy loop flushes when
    the newline-inclusive running size exceeds the budget, so it never packs
    a chunk to exactly B characters. -/
theorem chunk_count_not_minimal :
    (chunk_by_size (("aaaa\nbbbb\ncccccccc").data) 9).length = 3 ∧
      claimValidSplit 9 (("aaaa\nbbbb\ncccccccc").data)
        [("aaaa\nbbbb").data, ("cccccccc").data] ∧
      ([("aaaa\nbbbb").data, ("cccccccc").data] : List (List Char)).length = 2 := by
  refine ⟨by decide, ⟨by decide, ?_⟩, by decide⟩
  intro c hc
  fin_cases hc <;> left <;> decide

/-! ### Claims C1 and C9: the reconciler's key discipline and provenance -/

theorem validRec_true_iff (c : EndpointRecord) :
    validRec c = true ↔ (c.method ≠ ("") ∧ c.path ≠ ("")) := by
  unfold validRec
  simp

theorem candsFor_append (k : String) (cs : List EndpointRecord)
    (c : EndpointRecord) :
    candsFor k (cs ++ [c]) =
      candsFor k cs ++ if validRec c && (keyOf c == k) then [c] else [] := by
  unfold candsFor
  rw [List.filter_append]
  congr 1
  by_cases hb : (validRec c && (keyOf c == k)) = true
  · simp [List.filter, hb]
  · simp [List.filter, hb]

theorem altSpec_append (prim : String × String) (later : List EndpointRecord)
    (c : EndpointRecord) :
    altSpec prim (later ++ [c]) =
      if srcOf c ≠ prim ∧ srcOf c ∉ altSpec prim later
      then altSpec prim later ++ [srcOf c] else altSpec prim later := by
  unfold altSpec
  rw [List.foldl_append]
  rfl

theorem altSpec_nodup (prim : String × String) (later : List EndpointRecord) :
    (altSpec prim later).Nodup := by
  have main : ∀ (l : List EndpointRecord) (acc : List (String × String)),
      acc.Nodup →
      (l.foldl (fun acc c =>
        if srcOf c ≠ prim ∧ srcOf c ∉ acc then acc ++ [srcOf c] else acc)
        acc).Nodup := by
    intro l
    induction l with
    | nil => intro acc h; exact h
    | cons c cs ih =>
      intro acc h
      simp only [List.foldl_cons]
      apply ih
      split
      · next hc =>
        simp [List.nodup_append, h, hc.2]
      · exact h
  exact main later [] (by simp)

theorem mergeAlt_fields (e : CanonicalRecord) (c : EndpointRecord) :
    (mergeAlt e c).method = e.method ∧ (mergeAlt e c).path = e.path ∧
      (mergeAlt e c).repo_name = e.repo_name ∧
      (mergeAlt e c).file_path = e.file_path := by
  unfold mergeAlt
  split <;> simp

theorem mergeAlt_alt (e : CanonicalRecord) (c : EndpointRecord) :
    (mergeAlt e c).alternative_sources =
      if srcOf c ≠ (e.repo_name, e.file_path) ∧
          srcOf c ∉ e.alternative_sources
      then e.alternative_sources ++ [srcOf c]
      else e.alternative_sources := by
  have hiff : ((c.repo_name ≠ e.repo_name ∨ c.file_path ≠ e.file_path) ∧
        (c.repo_name, c.file_path) ∉ e.alternative_sources) ↔
      (srcOf c ≠ (e.repo_name, e.file_path) ∧
        srcOf c ∉ e.alternative_sources) := by
    unfold srcOf
    simp [Prod.mk.injEq, not_and_or]
    tauto
  unfold mergeAlt
  by_cases h : (c.repo_name ≠ e.repo_name ∨ c.file_path ≠ e.file_path) ∧
      (c.repo_name, c.file_path) ∉ e.alternative_sources
  · rw [if_pos h, if_pos (hiff.mp h)]
    rfl
  · rw [if_neg h, if_neg (fun hx => h (hiff.mpr hx))]

theorem dedup_state_inv (cs : List EndpointRecord) :
    ((cs.foldl dedup_step []).map Prod.fst).Nodup ∧
      (∀ p ∈ cs.foldl dedup_step [], ∃ c0 later,
        candsFor p.1 cs = c0 :: later ∧ p.1 = keyOf c0 ∧
        p.2.method = c0.method ∧ p.2.path = c0.path ∧
        p.2.repo_name = c0.repo_name ∧ p.2.file_path = c0.file_path ∧
        p.2.alternative_sources = altSpec (srcOf c0) later) ∧
      (∀ k, candsFor k cs ≠ [] → k ∈ (cs.foldl dedup_step []).map Prod.fst) := by
  induction cs using List.reverseRecOn with
  | nil =>
    refine ⟨by simp, by simp, ?_⟩
    intro k h
    simp [candsFor] at h
  | append_singleton cs c ih =>
    obtain ⟨hnd, hchar, hcomp⟩ := ih
    rw [List.foldl_append]
    simp only [List.foldl_cons, List.foldl_nil]
    by_cases hv : c.method ≠ ("") ∧ c.path ≠ ("")
    · rw [dedup_step, if_pos hv]
      cases hfind : (cs.foldl dedup_step []).find? (fun p => p.1 == keyOf c) with
      | none =>
        have hknotin : keyOf c ∉ (cs.foldl dedup_step []).map Prod.fst := by
          intro hmem
          obtain ⟨p, hp, hfst⟩ := List.mem_map.mp hmem
          have hne := List.find?_eq_none.mp hfind p hp
          rw [hfst] at hne
          simp at hne
        have hempty : candsFor (keyOf c) cs = [] := by
          by_contra hne
          exact hknotin (hcomp (keyOf c) hne)
        refine ⟨?_, ?_, ?_⟩
        · rw [List.map_append]
          simp [List.nodup_append, hnd, hknotin]
        · intro p hp
          rcases List.mem_append.mp hp with hp1 | hp2
          · obtain ⟨c0, later, h1, h2, h3, h4, h5, h6, h7⟩ := hchar p hp1
            have hne := List.find?_eq_none.mp hfind p hp1
            simp only [beq_iff_eq] at hne
            have hcf : candsFor p.1 (cs ++ [c]) = candsFor p.1 cs := by
              rw [candsFor_append,
                show (validRec c && (keyOf c == p.1)) = false by
                  simp [Ne.symm hne]]
              simp
            exact ⟨c0, later, hcf.trans h1, h2, h3, h4, h5, h6, h7⟩
          · have hp' : p = (keyOf c,
                ⟨c.method, c.path, c.repo_name, c.file_path, []⟩) := by
              simpa using hp2
            subst hp'
            refine ⟨c, [], ?_, rfl, rfl, rfl, rfl, rfl, ?_⟩
            · rw [candsFor_append, hempty,
                show (validRec c && (keyOf c == keyOf c)) = true by
                  simp [validRec_true_iff, hv]]
              simp
            · simp [altSpec]
        · intro k hk
          rw [List.map_append]
          rw [candsFor_append] at hk
          by_cases hkk : (validRec c && (keyOf c == k)) = true
          · have hkeq : k = keyOf c := by
              simp only [Bool.and_eq_true, beq_iff_eq] at hkk
              exact hkk.2.symm
            simp [hkeq]
          · rw [show (if validRec c && (keyOf c == k) then [c] else []) = []
                by simp [hkk]] at hk
            simp only [List.append_nil] at hk
            exact List.mem_append_left _ (hcomp k hk)
      | some q =>
        have hq : (q.1 == keyOf c) = true := by
          have := List.find?_some hfind
          simpa using this
        have hqmem : q ∈ cs.foldl dedup_step [] :=
          List.mem_of_find?_eq_some hfind
        have hkin : keyOf c ∈ (cs.foldl dedup_step []).map Prod.fst :=
          List.mem_map.mpr ⟨q, hqmem, by simpa using hq⟩
        have hkeys : ((cs.foldl dedup_step []).map
              (fun p => if p.1 == keyOf c then (p.1, mergeAlt p.2 c) else p)).map
              Prod.fst = (cs.foldl dedup_step []).map Prod.fst := by
          rw [List.map_map]
          apply List.map_congr_left
          intro p _
          simp only [Function.comp_apply]
          by_cases h : (p.1 == keyOf c) = true
          · rw [if_pos h]
          · rw [if_neg h]
        refine ⟨by rw [hkeys]; exact hnd, ?_, ?_⟩
        · intro p' hp'
          obtain ⟨p, hp, rfl⟩ := List.mem_map.mp hp'
          obtain ⟨c0, later, h1, h2, h3, h4, h5, h6, h7⟩ := hchar p hp
          by_cases hkey : (p.1 == keyOf c) = true
          · have hkeq : p.1 = keyOf c := by simpa using hkey
            rw [if_pos hkey]
            refine ⟨c0, later ++ [c], ?_, h2, ?_, ?_, ?_, ?_, ?_⟩
            · show candsFor p.1 (cs ++ [c]) = c0 :: (later ++ [c])
              rw [candsFor_append, h1,
                show (validRec c && (keyOf c == p.1)) = true by
                  simp [validRec_true_iff, hv, hkeq]]
              simp
            · rw [(mergeAlt_fields p.2 c).1, h3]
            · rw [(mergeAlt_fields p.2 c).2.1, h4]
            · rw [(mergeAlt_fields p.2 c).2.2.1, h5]
            · rw [(mergeAlt_fields p.2 c).2.2.2, h6]
            · show (mergeAlt p.2 c).alternative_sources =
                altSpec (srcOf c0) (later ++ [c])
              rw [mergeAlt_alt, altSpec_append, h5, h6, h7]
              rfl
          · rw [if_neg hkey]
            have hne : p.1 ≠ keyOf c := by simpa using hkey
            have hcf : candsFor p.1 (cs ++ [c]) = candsFor p.1 cs := by
              rw [candsFor_append,
                show (validRec c && (keyOf c == p.1)) = false by
                  simp [Ne.symm hne]]
              simp
            exact ⟨c0, later, hcf.trans h1, h2, h3, h4, h5, h6, h7⟩
        · intro k hk
          rw [hkeys]
          rw [candsFor_append] at hk
          by_cases hkk : (validRec c && (keyOf c == k)) = true
          · have hkeq : k = keyOf c := by
              simp only [Bool.and_eq_true, beq_iff_eq] at hkk
              exact hkk.2.symm
            rw [hkeq]
            exact hkin
          · rw [show (if validRec c && (keyOf c == k) then [c] else []) = []
                by simp [hkk]] at hk
            simp only [List.append_nil] at hk
            exact hcomp k hk
    · rw [dedup_step, if_neg hv]
      have hvr : (validRec c) = false := by
        rw [← Bool.not_eq_true, validRec_true_iff]
        exact hv
      have hf : ∀ k, candsFor k (cs ++ [c]) = candsFor k cs := by
        intro k
        rw [candsFor_append, hvr]
        simp
      refine ⟨hnd, ?_, ?_⟩
      · intro p hp
        obtain ⟨c0, later, h1, h2, h3, h4, h5, h6, h7⟩ := hchar p hp
        exact ⟨c0, later, (hf p.1).trans h1, h2, h3, h4, h5, h6, h7⟩
      · intro k hk
        rw [hf k] at hk
        exact hcomp k hk

/-- Claim C9: every canonical entry's primary source is exactly the source
    of the first (method-and-path-carrying) candidate seen for its key, it
    is never changed afterwards, the entry's `alternative_sources` are the
    later same-key candidates whose source differs from the primary (first
    occurrences, in arrival order), and that list holds no duplicates. -/
theorem dedup_first_seen (cs : List EndpointRecord) (r : CanonicalRecord)
    (hr : r ∈ deduplicate_endpoints cs) :
    ∃ c0 later,
      candsFor (r.method ++ (":") ++ r.path) cs = c0 :: later ∧
        r.repo_name = c0.repo_name ∧ r.file_path = c0.file_path ∧
        r.method = c0.method ∧ r.path = c0.path ∧
        r.alternative_sources = altSpec (srcOf c0) later ∧
        r.alternative_sources.Nodup := by
  obtain ⟨_, hchar, _⟩ := dedup_state_inv cs
  rw [deduplicate_endpoints] at hr
  obtain ⟨p, hp, rfl⟩ := List.mem_map.mp hr
  obtain ⟨c0, later, h1, h2, h3, h4, h5, h6, h7⟩ := hchar p hp
  refine ⟨c0, later, ?_, h5, h6, h3, h4, h7, ?_⟩
  · rw [h3, h4]
    rw [show c0.method ++ (":") ++ c0.path = keyOf c0 from rfl, ← h2]
    exact h1
  · rw [h7]
    exact altSpec_nodup _ _

/-- Witness for C9 at a concrete candidate stream with one merged source. -/
theorem dedup_first_seen_witness :
    ∃ c0 later,
      candsFor
          ((⟨("GET"), ("/a"), ("r1"), ("f1"),
              [(("r2"), ("f2"))]⟩ : CanonicalRecord).method ++ (":") ++
            (⟨("GET"), ("/a"), ("r1"), ("f1"),
              [(("r2"), ("f2"))]⟩ : CanonicalRecord).path)
          [⟨("GET"), ("/a"), ("r1"), ("f1")⟩,
           ⟨("GET"), ("/a"), ("r2"), ("f2")⟩] = c0 :: later ∧
        (⟨("GET"), ("/a"), ("r1"), ("f1"),
            [(("r2"), ("f2"))]⟩ : CanonicalRecord).repo_name = c0.repo_name ∧
        (⟨("GET"), ("/a"), ("r1"), ("f1"),
            [(("r2"), ("f2"))]⟩ : CanonicalRecord).file_path = c0.file_path ∧
        (⟨("GET"), ("/a"), ("r1"), ("f1"),
            [(("r2"), ("f2"))]⟩ : CanonicalRecord).method = c0.method ∧
        (⟨("GET"), ("/a"), ("r1"), ("f1"),
            [(("r2"), ("f2"))]⟩ : CanonicalRecord).path = c0.path ∧
        (⟨("GET"), ("/a"), ("r1"), ("f1"),
            [(("r2"), ("f2"))]⟩ : CanonicalRecord).alternative_sources =
          altSpec (srcOf c0) later ∧
        (⟨("GET"), ("/a"), ("r1"), ("f1"),
            [(("r2"), ("f2"))]⟩ : CanonicalRecord).alternative_sources.Nodup :=
  dedup_first_seen
    [⟨("GET"), ("/a"), ("r1"), ("f1")⟩, ⟨("GET"), ("/a"), ("r2"), ("f2")⟩]
    ⟨("GET"), ("/a"), ("r1"), ("f1"), [(("r2"), ("f2"))]⟩ (by decide)

/-- Amended claim C1: the reconciler keys on the raw `method:path` string —
    it performs no normalisation of its own — so its catalog holds at most
    one entry per exact (method, path) pair; upper-casing and slash
    normalisation happen upstream in the response parser, so only already
    identical keys merge. -/
theorem dedup_raw_keys_nodup (cs : List EndpointRecord) :
    ((deduplicate_endpoints cs).map
      (fun r => r.method ++ (":") ++ r.path)).Nodup := by
  obtain ⟨hnd, hchar, _⟩ := dedup_state_inv cs
  have heq : (deduplicate_endpoints cs).map
        (fun r => r.method ++ (":") ++ r.path)
      = (cs.foldl dedup_step []).map Prod.fst := by
    rw [deduplicate_endpoints, List.map_map]
    apply List.map_congr_left
    intro p hp
    obtain ⟨c0, later, h1, h2, h3, h4, _, _, _⟩ := hchar p hp
    simp only [Function.comp_apply]
    rw [h3, h4, h2]
    rfl
  rw [heq]
  exact hnd

/-- Counterexample to C1 as stated: the spec's own scenario — `GET
    /api/users` from repoA/a.js followed by `get /api/users/` from
    repoB/b.js — produces TWO catalog entries with empty
    `alternative_sources`, not one merged entry, because
    `deduplicate_endpoints` compares raw keys; and two candidates that
    differ only in method case yield two entries sharing one normalized
    (method, path) pair. -/
theorem dedup_two_entries :
    (deduplicate_endpoints
        [⟨("GET"), ("/api/users"), ("repoA"), ("a.js")⟩,
         ⟨("get"), ("/api/users/"), ("repoB"), ("b.js")⟩]).length = 2 ∧
      (deduplicate_endpoints
          [⟨("GET"), ("/api/users"), ("repoA"), ("a.js")⟩,
           ⟨("get"), ("/api/users/"), ("repoB"), ("b.js")⟩]).map
        (fun r => r.alternative_sources) = [[], []] ∧
      (deduplicate_endpoints
          [⟨("GET"), ("/a"), ("r1"), ("f1")⟩,
           ⟨("get"), ("/a"), ("r2"), ("f2")⟩]).map
        (fun r => (upperChars r.method.data, normalizePath r.path.data)) =
      [((("GET").data), (("/a").data)), ((("GET").data), (("/a").data))] := by
  decide

/-! ### Claim C10: the parser emits only normalized records -/

theorem toNat_ofNat_small (n : Nat) (h : n < 55296) :
    (Char.ofNat n).toNat = n := by
  have hv : n.isValidChar := Or.inl h
  simp [Char.ofNat, hv, Char.toNat, Char.ofNatAux, UInt32.toNat,
    BitVec.toNat_ofNatLt]

theorem upChar_idem (c : Char) : upChar (upChar c) = upChar c := by
  unfold upChar
  split
  · next h =>
    have ht : (Char.ofNat (c.toNat - 32)).toNat = c.toNat - 32 := by
      apply toNat_ofNat_small
      omega
    rw [if_neg]
    omega
  · rfl

theorem upperChars_idem (l : List Char) :
    upperChars (upperChars l) = upperChars l := by
  unfold upperChars
  rw [List.map_map]
  apply List.map_congr_left
  intro c _
  exact upChar_idem c

theorem upChar_of_upper (c : Char) (h : isUpperAZ c) : upChar c = c := by
  unfold upChar
  rw [if_neg]
  unfold isUpperAZ at h
  omega

theorem collapse_head (l : List Char) :
    (collapseSlashes l).head? = l.head? := by
  induction l using collapseSlashes.induct with
  | case1 => rfl
  | case2 c => rfl
  | case3 c c' cs h ih =>
    rw [collapseSlashes, if_pos h, ih]
    simp [h.1, h.2]
  | case4 c c' cs h ih =>
    rw [collapseSlashes, if_neg h]
    rfl

theorem collapse_noDouble (l : List Char) :
    hasDoubleSlash (collapseSlashes l) = false := by
  induction l using collapseSlashes.induct with
  | case1 => rfl
  | case2 c => rfl
  | case3 c c' cs h ih =>
    rw [collapseSlashes, if_pos h]
    exact ih
  | case4 c c' cs h ih =>
    rw [collapseSlashes, if_neg h]
    rcases hX : collapseSlashes (c' :: cs) with _ | ⟨y, ys⟩
    · rfl
    · have hy : y = c' := by
        have hh := collapse_head (c' :: cs)
        rw [hX] at hh
        simpa using hh
    
      rw [hX] at ih
      subst hy
      show ((c = '/' && y = '/') || hasDoubleSlash (y :: ys)) = false
      rw [ih, Bool.or_false, Bool.and_eq_false_iff]
      by_cases hc : c = '/'
      · right
        simp only [decide_eq_false_iff_not]
        intro hc'
        exact h ⟨hc, hc'⟩
      · left
        simp only [decide_eq_false_iff_not]
        exact hc

theorem normalizePath_normalized (p : List Char) :
    isNormalizedPath (normalizePath p) := by
  unfold normalizePath isNormalizedPath
  by_cases hq : (collapseSlashes p).head? = some '/'
  · rw [if_pos hq]
    exact ⟨hq, collapse_noDouble p⟩
  · rw [if_neg hq]
    refine ⟨rfl, ?_⟩
    rcases hX : collapseSlashes p with _ | ⟨y, ys⟩
    · rfl
    · have hy : y ≠ '/' := by
        intro hc
        rw [hX, hc] at hq
        exact hq rfl
      have hnd := collapse_noDouble p
      rw [hX] at hnd
      show ((decide ('/' = '/')) && (decide (y = '/')) ||
        hasDoubleSlash (y :: ys)) = false
      rw [hnd, Bool.or_false, Bool.and_eq_false_iff]
      right
      simp only [decide_eq_false_iff_not]
      exact hy

/-- Claim C10: every record emitted by the inference-response parser — in
    the JSON branch unconditionally, and in the regex fallback branch under
    the guarantees its capture groups provide (`[A-Z]+` methods and
    non-empty path captures) — carries a method equal to its own
    upper-casing and a path that starts with a slash and contains no two
    consecutive slashes. -/
theorem parser_normalized :
    (∀ (entries : List (List Char × List Char)) (repo file : List Char),
        ∀ r ∈ parse_endpoints_from_response entries repo file,
          upperChars r.method = r.method ∧ isNormalizedPath r.path) ∧
      (∀ (ms : List (List Char × List Char)) (repo file : List Char),
        (∀ mp ∈ ms, (∀ ch ∈ mp.1, isUpperAZ ch) ∧ mp.2 ≠ []) →
        ∀ r ∈ regex_extract_endpoints ms repo file,
          upperChars r.method = r.method ∧ isNormalizedPath r.path) := by
  constructor
  · intro entries repo file r hr
    rw [parse_endpoints_from_response] at hr
    obtain ⟨mp, _, hsome⟩ := List.mem_filterMap.mp hr
    by_cases hp : mp.2 ≠ []
    · rw [if_pos hp] at hsome
      obtain rfl := Option.some.inj hsome
      exact ⟨upperChars_idem mp.1, normalizePath_normalized mp.2⟩
    · rw [if_neg hp] at hsome
      exact absurd hsome (by simp)
  · intro ms repo file hh r hr
    rw [regex_extract_endpoints] at hr
    obtain ⟨mp, hmp, rfl⟩ := List.mem_map.mp hr
    obtain ⟨hup, hne⟩ := hh mp hmp
    constructor
    · show upperChars mp.1 = mp.1
      unfold upperChars
      have hfix : ∀ ch ∈ mp.1, upChar ch = id ch :=
        fun ch hch => upChar_of_upper ch (hup ch hch)
      rw [List.map_congr_left hfix, List.map_id]
    · show isNormalizedPath (if mp.2 ≠ [] then normalizePath mp.2 else mp.2)
      rw [if_pos hne]
      exact normalizePath_normalized mp.2

/-- Witness for C10 at a concrete model response entry. -/
theorem parser_normalized_witness :
    upperChars (("GET").data) = ("GET").data ∧
      isNormalizedPath (("/api/users").data) :=
  parser_normalized.1 [((("get").data), (("api//users").data))]
    (("r").data) (("f").data)
    ⟨(("GET").data), (("/api/users").data), (("r").data), (("f").data)⟩
    (by decide)

/-! ### Claim C5: vendor/hidden exclusion takes precedence in classification -/

/-- Claim C5: a relative path with a vendor/build/dependency segment or a
    segment beginning with a dot is never selected by the classifier, even
    if an ecosystem pattern would match it; `routes/users.js` classifies as
    a Node/Express candidate while `node_modules/express/lib/router.js` is
    excluded. -/
theorem classify_excludes_vendor_hidden :
    (∀ path : List Char,
        (∃ part ∈ splitSep '/' path,
          part ∈ vendorDirs ∨ part.head? = some '.') →
        classify_relative_path path = none) ∧
      classify_relative_path (("routes/users.js").data) =
        some ("node_express") ∧
      classify_relative_path (("node_modules/express/lib/router.js").data) =
        none := by
  refine ⟨?_, by decide, by decide⟩
  intro path hex
  obtain ⟨part, hmem, hcase⟩ := hex
  unfold classify_relative_path
  by_cases hA : ((splitSep '/' path).any (fun p => p.head? == some '.')) = true
  · rw [if_pos hA]
  · rw [if_neg hA]
    rcases hcase with hv | hh
    · have hc : vendorDirs.contains part = true := List.elem_eq_true_of_mem hv
      rw [if_pos (List.any_eq_true.mpr ⟨part, hmem, hc⟩)]
    · exact absurd (List.any_eq_true.mpr ⟨part, hmem, by simp [hh]⟩) hA

/-- Witness for C5 at a concrete vendor path. -/
theorem classify_excludes_vendor_hidden_witness :
    classify_relative_path (("vendor/x.js").data) = none :=
  classify_excludes_vendor_hidden.1 (("vendor/x.js").data)
    ⟨("vendor").data, by decide, Or.inl (by decide)⟩

/-! ### Claims C6 and C7: the brace scanner's break position and fallback -/

theorem stateAtRegion_succ (region : List Char) (j : Nat) (c : Char)
    (h : region.get? j = some c) :
    stateAtRegion region (j + 1) = scanStep (stateAtRegion region j) c := by
  unfold stateAtRegion
  have h2 : region[j]? = some c := by
    rwa [List.get?_eq_getElem?] at h
  rw [List.take_succ, h2]
  rw [List.foldl_append]
  rfl

theorem isTriggerAt_char (mLen : Nat) (region : List Char) (i : Nat)
    (c : Char) (h : region.get? i = some c) :
    isTriggerAt mLen region i ↔
      (c = rbrace ∧ (stateAtRegion region i).1 = false ∧
        (stateAtRegion region i).2.2 - 1 = 0 ∧ mLen < i) := by
  unfold isTriggerAt
  rw [h]
  simp

theorem not_triggerAt_of_get_none (mLen : Nat) (region : List Char) (k : Nat)
    (h : region.get? k = none) : ¬ isTriggerAt mLen region k := by
  intro ht
  rw [ht.1] at h
  exact Option.some_ne_none _ h

theorem quoteUpd_of_not_quote (inS : Bool) (sC : Option Char) (c : Char)
    (h : isQuoteChar c = false) : quoteUpd inS sC c = (inS, sC) := by
  unfold quoteUpd
  rw [h]
  simp

theorem braceScanAux_correct (mLen : Nat) (region : List Char) :
    ∀ (rest : List Char) (i : Nat), rest = region.drop i →
      (∀ k, k < i → ¬ isTriggerAt mLen region k) →
      (braceScanAux mLen rest i (stateAtRegion region i).1
          (stateAtRegion region i).2.1 (stateAtRegion region i).2.2 = none ↔
        ∀ k, ¬ isTriggerAt mLen region k) ∧
      (∀ j, braceScanAux mLen rest i (stateAtRegion region i).1
          (stateAtRegion region i).2.1 (stateAtRegion region i).2.2 = some j ↔
        (isTriggerAt mLen region j ∧
          ∀ k, k < j → ¬ isTriggerAt mLen region k)) := by
  intro rest
  induction rest with
  | nil =>
    intro i hdrop hpre
    have hlen : region.length ≤ i := by
      have := congrArg List.length hdrop
      simp only [List.length_nil, List.length_drop] at this
      omega
    have hnone : ∀ k, ¬ isTriggerAt mLen region k := by
      intro k
      by_cases hk : k < i
      · exact hpre k hk
      · exact not_triggerAt_of_get_none mLen region k
          (List.get?_eq_none.mpr (by omega))
    constructor
    · simp [braceScanAux, hnone]
    · intro j
      simp only [braceScanAux]
      constructor
      · intro h
        exact absurd h (by simp)
      · intro hj
        exact absurd hj.1 (hnone j)
  | cons c cs ih =>
    intro i hdrop hpre
    have hget : region.get? i = some c := by
      have := List.get?_drop region i 0
      rw [← hdrop] at this
      simpa using this.symm
    have hdrop' : cs = region.drop (i + 1) := by
      have h1 : (region.drop i).tail = region.drop (i + 1) := by
        rw [← List.drop_drop]
        simp [List.drop_one]
      rw [← hdrop] at h1
      simpa using h1
    have hstep : stateAtRegion region (i + 1) =
        scanStep (stateAtRegion region i) c := stateAtRegion_succ region i c hget
    have htrig := isTriggerAt_char mLen region i c hget
    rcases hst : stateAtRegion region i with ⟨inS, sC, dep⟩
    rw [hst] at htrig
    dsimp only at htrig ⊢
    rcases hq : quoteUpd inS sC c with ⟨qa, qb⟩
    have hscan : scanStep (inS, sC, dep) c =
        if qa = false then
          if c = lbrace then (qa, qb, dep + 1)
          else if c = rbrace then (qa, qb, dep - 1)
          else (qa, qb, dep)
        else (qa, qb, dep) := by
      unfold scanStep
      rw [show quoteUpd (inS, sC, dep).1 (inS, sC, dep).2.1 c = (qa, qb)
        from hq]
    simp only [braceScanAux, hq]
    by_cases hqa : qa = false
    · rw [if_pos hqa] at hscan
      simp only [hqa, if_pos rfl, if_true, eq_self_iff_true]
      by_cases hcl : c = lbrace
      · rw [if_pos hcl] at hscan ⊢
        have hnt : ¬ isTriggerAt mLen region i := by
          rw [htrig]
          intro hcon
          rw [hcl] at hcon
          exact absurd hcon.1 (by decide)
        have hpre' : ∀ k, k < i + 1 → ¬ isTriggerAt mLen region k := by
          intro k hk
          rcases Nat.lt_succ_iff_lt_or_eq.mp hk with h | h
          · exact hpre k h
          · rw [h]; exact hnt
        have hih := ih (i + 1) hdrop' hpre'
        rw [hstep, hst, hscan] at hih
        dsimp only at hih
        rw [hqa] at hih
        exact hih
      · rw [if_neg hcl] at hscan ⊢
        by_cases hcr : c = rbrace
        · rw [if_pos hcr] at hscan ⊢
          have hqe : (qa, qb) = (inS, sC) := by
            rw [← hq]
            exact quoteUpd_of_not_quote inS sC c (by rw [hcr]; decide)
          have hinS : inS = false := by
            have := congrArg Prod.fst hqe
            simp only at this
            rw [← this]
            exact hqa
          have htrig' : isTriggerAt mLen region i ↔
              (dep - 1 = 0 ∧ mLen < i) := by
            rw [htrig]
            simp [hcr, hinS]
          by_cases hbreak : dep - 1 = 0 ∧ mLen < i
          · rw [if_pos hbreak]
            have htr : isTriggerAt mLen region i := htrig'.mpr hbreak
            constructor
            · constructor
              · intro h
                exact absurd h (by simp)
              · intro hall
                exact absurd htr (hall i)
            · intro j
              constructor
              · intro h
                have hji : j = i := by
                  have := Option.some.inj h
                  omega
                rw [hji]
                exact ⟨htr, hpre⟩
              · intro ⟨htj, hminj⟩
                have hji : j = i := by
                  by_contra hne
                  rcases Nat.lt_or_ge j i with h | h
                  · exact hpre j h htj
                  · have : i < j := by omega
                    exact hminj i this htr
                rw [hji]
          · rw [if_neg hbreak]
            have hnt : ¬ isTriggerAt mLen region i := fun h => hbreak (htrig'.mp h)
            have hpre' : ∀ k, k < i + 1 → ¬ isTriggerAt mLen region k := by
              intro k hk
              rcases Nat.lt_succ_iff_lt_or_eq.mp hk with h | h
              · exact hpre k h
              · rw [h]; exact hnt
            have hih := ih (i + 1) hdrop' hpre'
            rw [hstep, hst, hscan] at hih
            dsimp only at hih
            rw [hqa] at hih
            exact hih
        · rw [if_neg hcr] at hscan ⊢
          have hnt : ¬ isTriggerAt mLen region i := by
            rw [htrig]
            intro hcon
            exact hcr hcon.1
          have hpre' : ∀ k, k < i + 1 → ¬ isTriggerAt mLen region k := by
            intro k hk
            rcases Nat.lt_succ_iff_lt_or_eq.mp hk with h | h
            · exact hpre k h
            · rw [h]; exact hnt
          have hih := ih (i + 1) hdrop' hpre'
          rw [hstep, hst, hscan] at hih
          dsimp only at hih
          rw [hqa] at hih
          exact hih
    · rw [if_neg hqa] at hscan
      simp only [hqa, if_neg, if_false]
      rw [if_neg (show ¬ (true = false) by decide)]
      have hqt : qa = true := by
        cases qa
        · exact absurd rfl hqa
        · rfl
      have hnt : ¬ isTriggerAt mLen region i := by
        rw [htrig]
        intro hcon
        have hqe : (qa, qb) = (inS, sC) := by
          rw [← hq]
          exact quoteUpd_of_not_quote inS sC c (by rw [hcon.1]; decide)
        have : inS = qa := by
          have := congrArg Prod.fst hqe
          simpa using this.symm
        rw [hcon.2.1] at this
        exact hqa this.symm
      have hpre' : ∀ k, k < i + 1 → ¬ isTriggerAt mLen region k := by
        intro k hk
        rcases Nat.lt_succ_iff_lt_or_eq.mp hk with h | h
        · exact hpre k h
        · rw [h]; exact hnt
      have hih := ih (i + 1) hdrop' hpre'
      rw [hstep, hst, hscan] at hih
      dsimp only at hih
      rw [hqt] at hih
      exact hih

theorem braceScan_first (mLen : Nat) (region : List Char) :
    (braceScanAux mLen region 0 false none 0 = none ↔
      ∀ k, ¬ isTriggerAt mLen region k) ∧
    (∀ j, braceScanAux mLen region 0 false none 0 = some j ↔
      (isTriggerAt mLen region j ∧
        ∀ k, k < j → ¬ isTriggerAt mLen region k)) := by
  have h := braceScanAux_correct mLen region region 0 (by simp)
    (by intro k hk; omega)
  exact h

/-- Amended claim C6: for brace-delimited languages the section's end
    offset is one past the first position strictly after the match's end
    offset at which a closing brace, read outside a string literal, leaves
    the nesting counter at zero after its (conditional) pop — whether or
    not the counter ever went positive: a stray closing brace at zero depth
    also ends the section.  String suppression and the strict-after
    condition are as the claim states. -/
theorem extract_brace_end_first_zero (content : List Char)
    (mStart mEnd j : Nat)
    (h1 : isTriggerAt (mEnd - mStart) (braceRegion content mStart mEnd) j)
    (h2 : ∀ k, k < j →
      ¬ isTriggerAt (mEnd - mStart) (braceRegion content mStart mEnd) k) :
    extract_section_end_brace content mStart mEnd = mStart + j + 1 := by
  rw [extract_section_end_brace,
    ((braceScan_first (mEnd - mStart)
      (braceRegion content mStart mEnd)).2 j).mpr ⟨h1, h2⟩]

/-- Witness for the amended C6 at a concrete input whose counter never
    goes positive. -/
theorem extract_brace_end_first_zero_witness :
    extract_section_end_brace (("app.get(x) \x7d tail").data) 0 10 =
      0 + 11 + 1 :=
  extract_brace_end_first_zero (("app.get(x) \x7d tail").data) 0 10 11
    (by decide) (by decide)

/-- Counterexample to C6 as stated: in `app.get(x) } tail` (match span
    0..10) the nesting counter never goes positive, so no position
    qualifies under the claim's condition — the spec-modelled scan returns
    none — yet the code ends the section at offset 12, right after the
    stray closing brace. -/
theorem brace_end_without_positive :
    extract_section_end_brace (("app.get(x) \x7d tail").data) 0 10 = 12 ∧
      claimBraceEnd (("app.get(x) \x7d tail").data) 0 10 = none ∧
      matchLineEnd (("app.get(x) \x7d tail").data) 10 = 17 := by
  decide

/-- Amended claim C7: when no position of the scanned window makes the
    brace loop break, the section end falls back to the end of the line
    containing the match (`content.find('\n', match.end())`), not to the
    end of the 2000-character window; extraction still succeeds. -/
theorem extract_brace_fallback (content : List Char) (mStart mEnd : Nat)
    (h : ∀ k, k < (braceRegion content mStart mEnd).length →
      ¬ isTriggerAt (mEnd - mStart) (braceRegion content mStart mEnd) k) :
    extract_section_end_brace content mStart mEnd =
      matchLineEnd content mEnd := by
  have hall : ∀ k, ¬ isTriggerAt (mEnd - mStart)
      (braceRegion content mStart mEnd) k := by
    intro k
    by_cases hk : k < (braceRegion content mStart mEnd).length
    · exact h k hk
    · exact not_triggerAt_of_get_none _ _ k
        (List.get?_eq_none.mpr (by omega))
  rw [extract_section_end_brace,
    (braceScan_first (mEnd - mStart)
      (braceRegion content mStart mEnd)).1.mpr hall]

/-- Witness for the amended C7 at a concrete input with an unbalanced
    opening brace. -/
theorem extract_brace_fallback_witness :
    extract_section_end_brace (("app.get(x)\nfoo \x7bbar").data) 0 10 =
      matchLineEnd (("app.get(x)\nfoo \x7bbar").data) 10 :=
  extract_brace_fallback (("app.get(x)\nfoo \x7bbar").data) 0 10 (by decide)

/-- Counterexample to C7 as stated: in `app.get(x)\nfoo {bar` (match span
    0..10) the brace never closes; the code's section end is 10 — the end
    of the line containing the match — while the end of the scan window is
    19, so the fallback is the match line's end, not end-of-window. -/
theorem brace_fallback_line_end_not_window :
    extract_section_end_brace (("app.get(x)\nfoo \x7bbar").data) 0 10 = 10 ∧
      matchLineEnd (("app.get(x)\nfoo \x7bbar").data) 10 = 10 ∧
      min (("app.get(x)\nfoo \x7bbar").data).length
        (matchLineEnd (("app.get(x)\nfoo \x7bbar").data) 10 + 2000) = 19 := by
  decide

/-! ### Claim C8: the indentation branch never moves the section end -/

theorem findIdxFrom_some (p : Char → Bool) :
    ∀ (l : List Char) (j : Nat), findIdxFrom p l = some j →
      ∃ c, l.get? j = some c ∧ p c = true := by
  intro l
  induction l with
  | nil => intro j h; simp [findIdxFrom] at h
  | cons c cs ih =>
    intro j h
    rw [findIdxFrom] at h
    by_cases hp : p c = true
    · rw [if_pos hp] at h
      have : j = 0 := (Option.some.inj h).symm
      subst this
      exact ⟨c, rfl, hp⟩
    · rw [if_neg hp] at h
      cases hf : findIdxFrom p cs with
      | none => rw [hf] at h; simp at h
      | some j' =>
        rw [hf] at h
        have : j = j' + 1 := (Option.some.inj h).symm
        subst this
        obtain ⟨c', hget, hp'⟩ := ih j' hf
        exact ⟨c', by simpa using hget, hp'⟩

theorem pyFindCharNat_some (l : List Char) (c : Char) (i e : Nat)
    (h : pyFindCharNat l c i = some e) : l.get? e = some c ∧ i ≤ e := by
  unfold pyFindCharNat at h
  cases hf : findIdxFrom (fun d => d == c) (l.drop i) with
  | none => rw [hf] at h; simp at h
  | some j =>
    rw [hf] at h
    have he : e = i + j := (Option.some.inj h).symm
    subst he
    obtain ⟨c', hget, hp⟩ := findIdxFrom_some _ _ _ hf
    rw [List.get?_drop] at hget
    have : c' = c := by simpa using hp
    subst this
    exact ⟨hget, by omega⟩

theorem head?_eq_get0 (l : List Char) : l.head? = l.get? 0 := by
  cases l <;> rfl

theorem pyFindI_cons_self (c : Char) (rest : List Char) :
    pyFindI (c :: rest) c 0 = 0 := by
  unfold pyFindI pyFindCharNat findIdxFrom
  simp

theorem pyFindI_cons_one_some (c : Char) (rest : List Char) (j : Nat)
    (h : findIdxFrom (fun d => d == c) rest = some j) :
    pyFindI (c :: rest) c 1 = ((1 + j : Nat) : Int) := by
  unfold pyFindI pyFindCharNat
  simp [h]

theorem pyFindI_cons_one_none (c : Char) (rest : List Char)
    (h : findIdxFrom (fun d => d == c) rest = none) :
    pyFindI (c :: rest) c 1 = -1 := by
  unfold pyFindI pyFindCharNat
  simp [h]

theorem pySliceTo_nonneg (l : List Char) (q : Nat) :
    pySliceTo l (q : Int) = l.take q := by
  unfold pySliceTo
  rw [if_neg (by omega)]
  norm_num

theorem pySliceTo_neg_one (l : List Char) :
    pySliceTo l (-1) = l.take (l.length - 1) := by
  unfold pySliceTo
  rw [if_pos (by omega)]
  congr 1
  omega

/-- Claim C8 (code bug): the indentation-based end update of
    `extract_api_sections` for Python is a no-op.  The update expression
    `end + block[:block.find('\n', block.find('\n') + 1)].find('\n')`
    always adds zero whenever the dedent scan breaks, because `block`
    starts at the newline that ends the match's line, so the inner and
    outer `find` both hit offset 0.  Hence the section end for Python is
    always the end of the line containing the match, never the dedent
    point the code's own comments (and the specification) describe. -/
theorem extract_py_end_noop (content : List Char) (mEnd : Nat) :
    extract_section_end_py content mEnd = (matchLineEnd content mEnd : Int) := by
  simp only [extract_section_end_py]
  cases hfind : pyFindCharNat content nlChar mEnd with
  | none =>
    have hend : matchLineEnd content mEnd = content.length := by
      unfold matchLineEnd
      rw [hfind]
      rfl
    rw [hend]
    have hmin : min content.length (content.length + 2000) = content.length := by
      omega
    rw [hmin, List.take_length, List.drop_length]
    rw [show splitSep nlChar ([] : List Char) = [[]] from rfl]
    rw [if_neg (by simp)]
  | some e =>
    have hge := pyFindCharNat_some content nlChar mEnd e hfind
    have hend : matchLineEnd content mEnd = e := by
      unfold matchLineEnd
      rw [hfind]
      rfl
    have helt : e < content.length := by
      rcases List.get?_eq_some.mp hge.1 with ⟨h, _⟩
      exact h
    rw [hend]
    have heb : e < min content.length (e + 2000) := by omega
    have hb0 : ((content.take (min content.length (e + 2000))).drop e).get? 0 =
        some nlChar := by
      rw [List.get?_drop]
      simp only [Nat.add_zero]
      rw [List.get?_take heb]
      exact hge.1
    obtain ⟨rest, hrest⟩ : ∃ rest,
        (content.take (min content.length (e + 2000))).drop e =
          nlChar :: rest := by
      cases hb : (content.take (min content.length (e + 2000))).drop e with
      | nil => rw [hb] at hb0; simp at hb0
      | cons x xs =>
        rw [hb] at hb0
        simp only [List.get?_cons_zero, Option.some.injEq] at hb0
        exact ⟨xs, by rw [hb0]⟩
    rw [hrest]
    rw [show splitSep nlChar (nlChar :: rest) = [] :: splitSep nlChar rest from
      by rw [splitSep, if_pos rfl]]
    have hlen2 : 1 < ([] :: splitSep nlChar rest).length := by
      simp only [List.length_cons]
      rcases hs : splitSep nlChar rest with _ | ⟨g, gs⟩
      · exact absurd hs (splitSep_ne_nil nlChar rest)
      · simp
    rw [if_pos hlen2]
    cases hfl : ([] :: splitSep nlChar rest).find? hasContent with
    | none => rfl
    | some fl =>
      dsimp only
      by_cases hany : (([] :: splitSep nlChar rest).drop 1).any
          (fun l => hasContent l && indentOf l ≤ indentOf fl) = true
      · rw [if_pos hany]
        have hrne : rest ≠ [] := by
          intro hr
          subst hr
          rw [show splitSep nlChar ([] : List Char) = [[]] from rfl] at hany
          simp [hasContent] at hany
        rw [pyFindI_cons_self]
        norm_num
        cases hf2 : findIdxFrom (fun d => d == nlChar) rest with
        | some j =>
          rw [pyFindI_cons_one_some nlChar rest j hf2]
          rw [pySliceTo_nonneg]
          rw [Nat.add_comm 1 j]
          rw [show (nlChar :: rest).take (j + 1) = nlChar :: rest.take j from
            rfl]
          rw [pyFindI_cons_self]
        | none =>
          rw [pyFindI_cons_one_none nlChar rest hf2]
          rw [pySliceTo_neg_one]
          rw [show (nlChar :: rest).length - 1 = rest.length from by simp]
          obtain ⟨x, xs, hxs⟩ : ∃ x xs, rest = x :: xs := by
            cases rest
            · exact absurd rfl hrne
            · exact ⟨_, _, rfl⟩
          subst hxs
          rw [show (x :: xs).length = xs.length + 1 from rfl]
          rw [show (nlChar :: x :: xs).take (xs.length + 1) =
            nlChar :: (x :: xs).take xs.length from rfl]
          rw [pyFindI_cons_self]
      · rw [if_neg hany]
